import Mathlib

/-!
Shallow embedding of `src/utils/gen.py` (class `UtteranceGenerator`) and proofs
about it.  Python strings are modelled as `List Char`; the external
collaborators (spaCy's `nlp`, WordNet's `wn.synsets`, and the gensim embedding
model) are modelled as oracle parameters, since they are external resources
loaded at import time.  Cosine-similarity scores are modelled as rationals:
the only use the code makes of them is the comparison `similarity >= 0.70`.
-/

namespace UtterGen

/-- Python strings are modelled as lists of characters. -/
abbrev Str := List Char

/-- Model of `utterance.lower()` (`str.lower`), applied characterwise. -/
def pyLower (s : Str) : Str := s.map Char.toLower

/-- Helper for the regex `<.*?>` of `preprocess`: given the characters after a
`<`, returns the remainder after the first `>`, failing if a newline (which
`.` does not match) or the end of the string comes first. -/
def tagEnd : Str → Option Str
  | [] => none
  | c :: rest => if c = '>' then some rest else if c = '\n' then none else tagEnd rest

/-- Fuel-indexed worker for `removeTags`; the fuel (an upper bound on the
string length, decremented on every step) only makes the recursion structural,
the zero-fuel branch is unreachable when the fuel starts at the length. -/
def removeTagsF : Nat → Str → Str
  | 0, s => s
  | _ + 1, [] => []
  | f + 1, c :: rest =>
    if c = '<' then
      match tagEnd rest with
      | some rest2 => removeTagsF f rest2
      | none => c :: removeTagsF f rest
    else c :: removeTagsF f rest

/-- Model of `re.sub(re.compile('<.*?>'), '', s)` in `preprocess`: repeatedly
removes the leftmost non-overlapping match of `<.*?>`. -/
def removeTags (s : Str) : Str := removeTagsF s.length s

/-- Model of `re.sub('[0-9]+', '', s)` in `preprocess`: removing every maximal
run of ASCII digits is the same as removing every ASCII digit. -/
def removeDigits (s : Str) : Str := s.filter (fun c => !c.isDigit)

/-- Character class of the regex `\w` used by `RegexpTokenizer(r'\w+')`:
alphanumeric or underscore. -/
def isWordChar (c : Char) : Bool := c.isAlphanum || c = '_'

/-- Fuel-indexed worker for `splitRuns`; the zero-fuel branch is unreachable
when the fuel starts at the string length. -/
def splitRunsF (p : Char → Bool) : Nat → Str → List Str
  | 0, _ => []
  | _ + 1, [] => []
  | f + 1, c :: rest =>
    if p c then (c :: rest.takeWhile p) :: splitRunsF p f (rest.dropWhile p)
    else splitRunsF p f rest

/-- Maximal runs of characters satisfying `p` (fuel-wrapped for structural
recursion); with `p := isWordChar` this is `RegexpTokenizer(r'\w+').tokenize`,
with `p := fun c => !c.isWhitespace` it is Python's `str.split()` with no
arguments. -/
def splitRuns (p : Char → Bool) (s : Str) : List Str := splitRunsF p s.length s

/-- Model of `" ".join tokens`. -/
def joinSpace : List Str → Str
  | [] => []
  | [t] => t
  | t :: ts => t ++ ' ' :: joinSpace ts

/-- Model of `UtteranceGenerator.preprocess` (src/utils/gen.py:45-55):
lowercase, strip `<...>` tags, remove digit runs, tokenize on `\w+`, and
rejoin with single spaces. -/
def preprocess (s : Str) : Str :=
  joinSpace (splitRuns isWordChar (removeDigits (removeTags (pyLower s))))

/-- Model of Python `s.split()` (no separator): maximal runs of
non-whitespace characters. -/
def pySplit (s : Str) : List Str := splitRuns (fun c => !c.isWhitespace) s

/-- Model of Python `s.split(sep)` for a one-character separator `sep`
(used as `synonym.split("_")` in `map_synonyms`): splits at every occurrence
of the separator, keeping empty pieces. -/
def pySplitChar (sep : Char) : Str → List Str
  | [] => [[]]
  | c :: rest =>
    match pySplitChar sep rest with
    | [] => if c = sep then [[], []] else [[c]]
    | h :: t => if c = sep then [] :: h :: t else (c :: h) :: t

/-- Helper for Python `s.find(pat, start)`: scans `s` left to right, `i` being
the absolute index of the head of `s`; returns the index of the first
occurrence of `pat`, or `-1`. -/
def findAux (pat : Str) : Str → Nat → Int
  | [], i => if pat.isEmpty then (i : Int) else -1
  | c :: rest, i => if pat.isPrefixOf (c :: rest) then (i : Int) else findAux pat rest (i + 1)

/-- Model of Python `s.find(pat, start)` with an `int` start index: a negative
start counts from the end of the string (clamped at 0); a start past the end
yields `-1`; otherwise the first occurrence index at or after the start, or
`-1` if there is none. -/
def pyFindI (s pat : Str) (start : Int) : Int :=
  let st : Nat := if 0 ≤ start then start.toNat else s.length - (-start).toNat
  if st ≤ s.length then findAux pat (s.drop st) st else -1

/-- Model of the Python containment test `pat in s`. -/
def pyContains (s pat : Str) : Bool := 0 ≤ pyFindI s pat 0

/-- Model of the Python slice `s[:n]` for an `int` index `n` (negative indices
count from the end, clamped at 0). -/
def pySliceTo (s : Str) (n : Int) : Str :=
  if 0 ≤ n then s.take n.toNat else s.take (s.length - (-n).toNat)

/-- Model of the Python slice `s[n:]` for an `int` index `n` (negative indices
count from the end, clamped at 0). -/
def pySliceFrom (s : Str) (n : Int) : Str :=
  if 0 ≤ n then s.drop n.toNat else s.drop (s.length - (-n).toNat)

/-- Model of Python `s.replace(old, new)` for a nonempty pattern: replaces the
leftmost occurrence and continues scanning after the inserted replacement,
i.e. all non-overlapping occurrences left to right.  Fuel-indexed for
structural recursion; the zero-fuel branch is unreachable when the fuel starts
at the string length (each step consumes at least one character). -/
def replaceAuxF (old new : Str) : Nat → Str → Str
  | 0, s => s
  | _ + 1, [] => []
  | f + 1, c :: rest =>
    if old ≠ [] ∧ old.isPrefixOf (c :: rest) = true then
      new ++ replaceAuxF old new f (rest.drop (old.length - 1))
    else c :: replaceAuxF old new f rest

/-- Model of Python `s.replace(old, new)` with an empty pattern: `new` is
inserted before every character and at the end. -/
def replaceEmptyPat (new : Str) : Str → Str
  | [] => new
  | c :: rest => new ++ c :: replaceEmptyPat new rest

/-- Model of Python `s.replace(old, new)`. -/
def pyReplace (s old new : Str) : Str :=
  if old = [] then replaceEmptyPat new s else replaceAuxF old new s.length s

/-- The spaCy part-of-speech tags the code distinguishes; every other tag is
collapsed into `OTHER`. -/
inductive POS where
  | VERB | NOUN | PRON | PROPN | ADJ | ADV | OTHER
deriving DecidableEq, Repr

/-- Model of `self._posmap` (src/utils/gen.py:39): maps the spaCy tag to the
WordNet part-of-speech code.  `OTHER` is never looked up (the code guards with
the membership test on the six supported tags first), so its value here is an
arbitrary placeholder. -/
def posmap : POS → Char
  | .VERB => 'v'
  | .NOUN => 'n'
  | .PRON => 'n'
  | .PROPN => 'n'
  | .ADJ => 'a'
  | .ADV => 'r'
  | .OTHER => '?'

/-- The membership test `pos in ['VERB', 'NOUN', 'PRON', 'PROPN', 'ADJ',
'ADV']` of `get_synonyms`. -/
def supportedPOS : POS → Bool
  | .OTHER => false
  | _ => true

/-- The embedding model, abstracted to the only capability the code uses:
given the reference word and a candidate, either the candidate has no usable
embedding (`none`, the `if vec.any()` guard fails) or it yields a cosine
similarity score. -/
abbrev SimModel := Str → Str → Option Rat

/-- External collaborators of the generator: spaCy's tokenizer+tagger (a list
of (token text, POS) pairs for the utterance) and WordNet's flattened
`lemma_names` of all synsets of a word at a given part-of-speech code. -/
structure Oracles where
  nlp : Str → List (Str × POS)
  lemmas : Str → Char → List Str

/-- Model of `self._model = model if model else wikimodel`
(src/utils/gen.py:40): a missing model is replaced by the module-level
`wikimodel`, so the stored model is never `None`. -/
def initModel (wikimodel : SimModel) (model : Option SimModel) : Option SimModel :=
  match model with
  | some m => some m
  | none => some wikimodel

/-- Model of `UtteranceGenerator.get_phrases` (src/utils/gen.py:58-86): the
static phrase bank, in source order (including the duplicated entry in
`signs` and the capital `I`s in `timing`). -/
def get_phrases : List (List Str) :=
  let need := [("do i need").data, ("do i need to").data, ("must i").data,
    ("must i have").data, ("is it required that i").data, ("will i need").data,
    ("will i need to").data]
  let signs := [("what are the signs i need").data, ("what are the signs i need").data,
    ("how do i know i need").data, ("when will i need to").data,
    ("how can i know i need to").data, ("what are the signs you should").data,
    ("when should i have").data, ("how do i know i should have").data]
  let timing := [("when will I get").data, ("when can I expect").data,
    ("when are").data, ("by when should I have").data]
  let frequency := [("how often do i need").data, ("what is the timeframe for").data]
  let scheduling := [("when is my").data, ("on what date").data, ("when do i see").data]
  let insurance := [("is this covered").data, ("will my insurance cover").data,
    ("will insurance cover").data, ("do i need to pay").data]
  let bill := [("what is my bill").data, ("how much do i owe").data,
    ("how much will i pay for").data]
  let location := [("where is").data, ("where can i find").data, ("how can i find").data,
    ("i cant find").data, ("what is the location").data, ("can i have the location").data]
  let ability := [("what can i").data, ("is there anything i can").data, ("can i").data]
  let preparation := [("what do i need").data, ("how do i prepare").data,
    ("how can i get ready for").data, ("what should i bring").data]
  let forgetfulness := [("what if i forgot").data, ("i forgot to").data,
    ("is it ok if i forgot").data]
  let explanation := [("what is").data, ("tell me what is").data, ("describe").data,
    ("i want to understand").data]
  [need, signs, timing, bill, frequency, scheduling, insurance, location,
   ability, preparation, forgetfulness, explanation]

/-- The loop `for w in nlp(self._utterance): if str(w)==word: return w.pos_`
of `get_pos`: the tag of the first token whose text equals the word, `None`
when the loop falls through. -/
def posLookup : List (Str × POS) → Str → Option POS
  | [], _ => none
  | (t, p) :: rest, w => if t = w then some p else posLookup rest w

/-- Model of `UtteranceGenerator.get_pos` (src/utils/gen.py:88-99), against a
stored utterance `utt`: raises `ValueError` (here `Except.error`) when the
utterance or the word is empty or when the normalized word does not occur in
the utterance; otherwise returns the tag of the first spaCy token whose text
equals the word (`None` if there is none). -/
def get_pos (nlpO : Str → List (Str × POS)) (utt word : Str) : Except String (Option POS) :=
  if utt = [] ∨ word = [] then .error ("Error: Input is empty string.")
  else if pyContains utt (preprocess word) = false then
    .error ("Error: The word is not in the utterance.")
  else .ok (posLookup (nlpO utt) word)

/-- Python-dict update on an association list: overwrites the value at an
existing key in place, otherwise appends the new binding at the end
(insertion order). -/
def dictUpd {α : Type} (d : List (Str × α)) (k : Str) (v : α) : List (Str × α) :=
  if d.any (fun p => p.1 == k) then d.map (fun p => if p.1 == k then (k, v) else p)
  else d ++ [(k, v)]

/-- Model of `UtteranceGenerator.get_similarities` (src/utils/gen.py:102-125):
the dict starts with the word itself at similarity 1.0; every synonym whose
embedding lookup succeeds is then scored and inserted. -/
def get_similarities (m : SimModel) (word : Str) (synonyms : List Str) : List (Str × Rat) :=
  synonyms.foldl
    (fun sims s =>
      match m word s with
      | some v => dictUpd sims s v
      | none => sims)
    [(word, 1)]

/-- Model of `UtteranceGenerator.get_synonyms` (src/utils/gen.py:146-158):
`None` (modelled `Option.none`) when the word's tag is missing or unsupported;
otherwise the set of WordNet lemma names (a Python `set`, modelled as a
deduplicated list), filtered by `similarity >= 0.70` when a model is stored.
The `if len(word)>1` guard sits inside the comprehension, so a short word
yields an empty set. -/
def get_synonyms (o : Oracles) (model : Option SimModel) (utt word : Str) :
    Except String (Option (List Str)) := do
  let posOpt ← get_pos o.nlp utt (preprocess word)
  match posOpt with
  | none => pure none
  | some pos =>
    if supportedPOS pos = false then pure none
    else
      let synonyms := if word.length > 1 then (o.lemmas word (posmap pos)).dedup else []
      match model with
      | none => pure (some synonyms)
      | some m =>
        let sims := get_similarities m word synonyms
        pure (some ((sims.filter (fun p => mkRat 7 10 ≤ p.2)).map (fun p => p.1)))

/-- A built synonym map: insertion-ordered word-to-synonyms bindings. -/
abbrev SynMap := List (Str × List Str)

/-- The list-comprehension filter of `map_synonyms` (src/utils/gen.py:172-174):
keep only single-token synonyms that normalize to something different from the
word. -/
def filterSyns (word : Str) (syns : List Str) : List Str :=
  syns.filter (fun syn => (pySplitChar '_' syn).length == 1 && preprocess syn != word)

/-- The body of the `for word in self._utterance.split()` loop of
`map_synonyms` (src/utils/gen.py:168-176): look up synonyms, post-filter a
truthy (non-`None`, nonempty) result, and record the word only if the
filtered list is still truthy (nonempty). -/
def mapSynStep (o : Oracles) (model : Option SimModel) (utt : Str) (d : SynMap)
    (word : Str) : Except String SynMap := do
  let synsOpt ← get_synonyms o model utt word
  let syns1 : List Str := match synsOpt with | none => [] | some l => l
  let syns2 := if syns1 ≠ [] then filterSyns word syns1 else syns1
  if syns2 ≠ [] then pure (dictUpd d word syns2) else pure d

/-- Model of `UtteranceGenerator.map_synonyms` (src/utils/gen.py:161-178):
for each word of the utterance in order, look up synonyms (a raised
`ValueError` aborts the whole build), post-filter them, and record the word
only if the filtered list is nonempty. -/
def map_synonyms (o : Oracles) (model : Option SimModel) (utt : Str) :
    Except String SynMap :=
  (pySplit utt).foldlM (mapSynStep o model utt) []

/-- Dict lookup used for `word in self._synonymsdict` / `self._synonymsdict[word]`. -/
def dictGet {α : Type} (d : List (Str × α)) (k : Str) : Option α :=
  (d.find? (fun p => p.1 == k)).map (fun p => p.2)

/-- The token-list construction of `add_synonyms` (src/utils/gen.py:189-194):
one candidate list per word of the utterance, `[word] + synonyms` for mapped
words and `[word]` otherwise. -/
def buildTokens (d : SynMap) (words : List Str) : List (List Str) :=
  words.map (fun w =>
    match dictGet d w with
    | some syns => w :: syns
    | none => [w])

/-- The generation loop of `add_synonyms` (src/utils/gen.py:197-207): for each
position, locate the original word from the running cursor `prev`, emit one
spliced utterance per candidate, then advance the cursor past the located
span. -/
def synLoop (utt : Str) : List (List Str) → Int → List Str
  | [], _ => []
  | slist :: rest, prev =>
    match slist with
    | [] => synLoop utt rest prev
    | word :: _ =>
      let start := pyFindI utt word prev
      let stop := start + (word.length : Int)
      (slist.map (fun cand => pySliceTo utt start ++ cand ++ pySliceFrom utt stop))
        ++ synLoop utt rest stop

/-- The `find` results of the `add_synonyms` loop: the projection of `synLoop`
to the (word, start index) pairs it computes, cursor threading unchanged. -/
def synStarts (utt : Str) : List (List Str) → Int → List (Str × Int)
  | [], _ => []
  | slist :: rest, prev =>
    match slist with
    | [] => synStarts utt rest prev
    | word :: _ =>
      let start := pyFindI utt word prev
      (word, start) :: synStarts utt rest (start + (word.length : Int))

/-- Model of `UtteranceGenerator.add_synonyms` (src/utils/gen.py:181-209).
`list(set(genlist))` enumerates the set in an unspecified order; it is
modelled as `List.dedup`, which preserves the members and removes duplicates. -/
def add_synonyms (utt : Str) (d : SynMap) : List Str :=
  (synLoop utt (buildTokens d (pySplit utt)) 0).dedup

/-- Model of `UtteranceGenerator.add_phrases` (src/utils/gen.py:212-231): for
every phrase of every equivalence class that occurs in the utterance, one
output per entry at index `0 .. len(class)-2` distinct from the matched
phrase, replacing every occurrence of the matched phrase.  The final class
entry is never used as a replacement by `range(len(plist)-1)`. -/
def add_phrases (utt : Str) : List Str :=
  if get_phrases = [] then []
  else
    (get_phrases.map (fun plist =>
      (plist.map (fun phrase =>
        if pyContains utt phrase then
          ((plist.take (plist.length - 1)).filter (fun p => p != phrase)).map
            (fun p => pyReplace utt phrase p)
        else [])).flatten)).flatten

/-- Model of `UtteranceGenerator.generate` (src/utils/gen.py:234-245) combined
with the construction in `__init__`: normalize, store the (possibly defaulted)
model, build the synonym map, and return the shuffled concatenation of the two
assemblers' outputs.  `random.shuffle` is modelled by the parameter `sh`,
constrained to a permutation in the theorems. -/
def generate (o : Oracles) (modelIn : Option SimModel) (wikimodel : SimModel)
    (sh : List Str → List Str) (raw : Str) : Except String (List Str) := do
  let utt := preprocess raw
  let model := initModel wikimodel modelIn
  let d ← map_synonyms o model utt
  pure (sh (add_synonyms utt d ++ add_phrases utt))

/-- Trivial collaborators (no spaCy tokens, no WordNet lemmas), used to
instantiate theorems at concrete inputs. -/
def trivOracles : Oracles := ⟨fun _ => [], fun _ _ => []⟩

/-- A degenerate embedding model scoring every pair at 0, used to instantiate
theorems at concrete inputs. -/
def zeroModel : SimModel := fun _ _ => some 0

/-- Collaborators for concrete instantiations: the single token "cat" tagged
as a noun, and the single WordNet lemma "feline" for every lookup. -/
def catOracles : Oracles := ⟨fun _ => [(("cat").data, POS.NOUN)], fun _ _ => [("feline").data]⟩

/-- A degenerate embedding model scoring every pair at 9/10, used to
instantiate theorems at concrete inputs. -/
def nineModel : SimModel := fun _ _ => some (mkRat 9 10)

/-! ### Character-level lemmas -/

theorem char_toNat_ofNat (n : Nat) (h : n < 55296) : (Char.ofNat n).toNat = n := by
  rw [Char.ofNat, dif_pos (Or.inl (show n < 0xd800 from h))]
  rfl

theorem toLower_idem (c : Char) : c.toLower.toLower = c.toLower := by
  simp only [Char.toLower]
  by_cases h : c.toNat ≥ 65 ∧ c.toNat ≤ 90
  · rw [if_pos h]
    have ht : (Char.ofNat (c.toNat + 32)).toNat = c.toNat + 32 :=
      char_toNat_ofNat _ (by omega)
    rw [if_neg]
    rw [ht]
    omega
  · rw [if_neg h, if_neg h]

theorem ws_cases {c : Char} (h : c.isWhitespace = true) :
    c = ' ' ∨ c = '\t' ∨ c = '\r' ∨ c = '\n' := by
  have h2 : ((c = ' ' ∨ c = '\t') ∨ c = '\r') ∨ c = '\n' := by
    simpa [Char.isWhitespace] using h
  tauto

theorem wordChar_not_ws {c : Char} (h : isWordChar c = true) : c.isWhitespace = false := by
  cases hw : c.isWhitespace
  · rfl
  · rcases ws_cases hw with rfl | rfl | rfl | rfl <;> exact absurd h (by decide)

theorem wordChar_ne_lt {c : Char} (h : isWordChar c = true) : c ≠ '<' := by
  intro hc
  subst hc
  exact absurd h (by decide)

theorem wordChar_space : isWordChar ' ' = false := by decide

/-! ### Normalizer structure lemmas -/

theorem tagEnd_length : ∀ (s r : Str), tagEnd s = some r → r.length < s.length := by
  intro s
  induction s with
  | nil => intro r h; simp [tagEnd] at h
  | cons c rest ih =>
    intro r h
    simp only [tagEnd] at h
    by_cases hc : c = '>'
    · rw [if_pos hc] at h
      cases h
      simp
    · rw [if_neg hc] at h
      by_cases hn : c = '\n'
      · rw [if_pos hn] at h; cases h
      · rw [if_neg hn] at h
        have := ih r h
        simp
        omega

theorem removeTagsF_irrel : ∀ (f g : Nat) (s : Str), s.length ≤ f → s.length ≤ g →
    removeTagsF f s = removeTagsF g s := by
  intro f
  induction f with
  | zero =>
    intro g s hf _
    have hs : s = [] := List.length_eq_zero.mp (Nat.le_zero.mp hf)
    subst hs
    cases g <;> rfl
  | succ f ih =>
    intro g s hf hg
    cases s with
    | nil => cases g <;> rfl
    | cons c rest =>
      cases g with
      | zero => simp at hg
      | succ g2 =>
        simp only [removeTagsF]
        simp only [List.length_cons] at hf hg
        by_cases hc : c = '<'
        · rw [if_pos hc, if_pos hc]
          cases ht : tagEnd rest with
          | some rest2 =>
            have hl := tagEnd_length rest rest2 ht
            exact ih g2 rest2 (by omega) (by omega)
          | none =>
            rw [ih g2 rest (by omega) (by omega)]
        · rw [if_neg hc, if_neg hc, ih g2 rest (by omega) (by omega)]

theorem removeTags_nil : removeTags [] = [] := rfl

theorem removeTags_cons (c : Char) (rest : Str) :
    removeTags (c :: rest) =
      (if c = '<' then
        match tagEnd rest with
        | some rest2 => removeTags rest2
        | none => c :: removeTags rest
      else c :: removeTags rest) := by
  show removeTagsF (rest.length + 1) (c :: rest) = _
  simp only [removeTagsF]
  by_cases hc : c = '<'
  · rw [if_pos hc, if_pos hc]
    cases ht : tagEnd rest with
    | some rest2 =>
      have hl := tagEnd_length rest rest2 ht
      exact removeTagsF_irrel _ _ rest2 (by omega) (by omega)
    | none => rfl
  · rw [if_neg hc, if_neg hc]
    rfl

theorem splitRunsF_irrel (p : Char → Bool) : ∀ (f g : Nat) (s : Str),
    s.length ≤ f → s.length ≤ g → splitRunsF p f s = splitRunsF p g s := by
  intro f
  induction f with
  | zero =>
    intro g s hf _
    have hs : s = [] := List.length_eq_zero.mp (Nat.le_zero.mp hf)
    subst hs
    cases g <;> rfl
  | succ f ih =>
    intro g s hf hg
    cases s with
    | nil => cases g <;> rfl
    | cons c rest =>
      cases g with
      | zero => simp at hg
      | succ g2 =>
        simp only [splitRunsF]
        simp only [List.length_cons] at hf hg
        have hd := (List.dropWhile_sublist p (l := rest)).length_le
        by_cases hc : p c
        · rw [if_pos hc, if_pos hc, ih g2 (rest.dropWhile p) (by omega) (by omega)]
        · rw [if_neg hc, if_neg hc, ih g2 rest (by omega) (by omega)]

theorem splitRuns_nil (p : Char → Bool) : splitRuns p [] = [] := rfl

theorem splitRuns_cons (p : Char → Bool) (c : Char) (rest : Str) :
    splitRuns p (c :: rest) =
      (if p c then (c :: rest.takeWhile p) :: splitRuns p (rest.dropWhile p)
       else splitRuns p rest) := by
  show splitRunsF p (rest.length + 1) (c :: rest) = _
  simp only [splitRunsF]
  have hd := (List.dropWhile_sublist p (l := rest)).length_le
  by_cases hc : p c
  · rw [if_pos hc, if_pos hc]
    congr 1
    exact splitRunsF_irrel p _ _ (rest.dropWhile p) hd (Nat.le_refl _)
  · rw [if_neg hc, if_neg hc]
    rfl

theorem map_fixed {f : Char → Char} : ∀ (l : Str), (∀ c ∈ l, f c = c) → l.map f = l := by
  intro l
  induction l with
  | nil => intro _; rfl
  | cons c rest ih =>
    intro h
    simp only [List.map_cons]
    rw [h c (by simp), ih (fun d hd => h d (by simp [hd]))]

theorem joinSpace_cons_cons (t t2 : Str) (ts : List Str) :
    joinSpace (t :: t2 :: ts) = t ++ ' ' :: joinSpace (t2 :: ts) := rfl

theorem mem_joinSpace {c : Char} : ∀ (toks : List Str), c ∈ joinSpace toks →
    (∃ t ∈ toks, c ∈ t) ∨ c = ' ' := by
  intro toks
  induction toks with
  | nil => intro h; simp [joinSpace] at h
  | cons t ts ih =>
    intro h
    cases ts with
    | nil =>
      simp only [joinSpace] at h
      exact Or.inl ⟨t, by simp, h⟩
    | cons t2 ts2 =>
      rw [joinSpace_cons_cons] at h
      rcases List.mem_append.mp h with h1 | h2
      · exact Or.inl ⟨t, by simp, h1⟩
      · rcases List.mem_cons.mp h2 with rfl | h3
        · exact Or.inr rfl
        · rcases ih h3 with ⟨u, hu, hcu⟩ | hsp
          · exact Or.inl ⟨u, by simp [hu], hcu⟩
          · exact Or.inr hsp

theorem splitRuns_sound (p : Char → Bool) (s : Str) : ∀ t ∈ splitRuns p s,
    t ≠ [] ∧ ∀ c ∈ t, p c = true ∧ c ∈ s := by
  have H : ∀ (n : Nat) (s : Str), s.length ≤ n → ∀ t ∈ splitRuns p s,
      t ≠ [] ∧ ∀ c ∈ t, p c = true ∧ c ∈ s := by
    intro n
    induction n with
    | zero =>
      intro s hs t ht
      have : s = [] := List.length_eq_zero.mp (Nat.le_zero.mp hs)
      subst this
      simp [splitRuns_nil] at ht
    | succ n ihn =>
      intro s hs t ht
      cases s with
      | nil => simp [splitRuns_nil] at ht
      | cons c rest =>
        simp only [List.length_cons] at hs
        have hd := (List.dropWhile_sublist p (l := rest)).length_le
        rw [splitRuns_cons] at ht
        by_cases hp : p c
        · rw [if_pos hp] at ht
          rcases List.mem_cons.mp ht with rfl | ht2
          · refine ⟨by simp, fun d hd2 => ?_⟩
            rcases List.mem_cons.mp hd2 with rfl | hd3
            · exact ⟨hp, by simp⟩
            · have hptw := List.mem_takeWhile_imp hd3
              have hmem : d ∈ rest := (List.takeWhile_sublist p).subset hd3
              exact ⟨hptw, by simp [hmem]⟩
          · obtain ⟨hne, hall⟩ := ihn (rest.dropWhile p) (by omega) t ht2
            refine ⟨hne, fun d hd2 => ?_⟩
            obtain ⟨hpd, hmem⟩ := hall d hd2
            have : d ∈ rest := (List.dropWhile_sublist p).subset hmem
            exact ⟨hpd, by simp [this]⟩
        · rw [if_neg hp] at ht
          obtain ⟨hne, hall⟩ := ihn rest (by omega) t ht
          refine ⟨hne, fun d hd2 => ?_⟩
          obtain ⟨hpd, hmem⟩ := hall d hd2
          exact ⟨hpd, by simp [hmem]⟩
  exact H s.length s (Nat.le_refl _)

theorem takeWhile_all {p : Char → Bool} {l : Str} (h : ∀ c ∈ l, p c = true) :
    l.takeWhile p = l := by
  induction l with
  | nil => rfl
  | cons c rest ih =>
    rw [List.takeWhile_cons, if_pos (h c (by simp)), ih (fun d hd => h d (by simp [hd]))]

theorem dropWhile_all {p : Char → Bool} {l : Str} (h : ∀ c ∈ l, p c = true) :
    l.dropWhile p = [] := by
  induction l with
  | nil => rfl
  | cons c rest ih =>
    rw [List.dropWhile_cons_of_pos (h c (by simp)), ih (fun d hd => h d (by simp [hd]))]

theorem splitRuns_joinSpace {p : Char → Bool} (hsp : p ' ' = false) :
    ∀ (toks : List Str), (∀ t ∈ toks, t ≠ [] ∧ ∀ c ∈ t, p c = true) →
    splitRuns p (joinSpace toks) = toks := by
  intro toks
  induction toks with
  | nil => intro _; rfl
  | cons t ts ih =>
    intro h
    obtain ⟨hne, hall⟩ := h t (by simp)
    obtain ⟨c, cs, rfl⟩ := List.exists_cons_of_ne_nil hne
    have hc : p c = true := hall c (by simp)
    have hcs : ∀ d ∈ cs, p d = true := fun d hd => hall d (by simp [hd])
    cases ts with
    | nil =>
      show splitRuns p (c :: cs) = [c :: cs]
      rw [splitRuns_cons, if_pos hc, takeWhile_all hcs, dropWhile_all hcs, splitRuns_nil]
    | cons t2 ts2 =>
      rw [joinSpace_cons_cons]
      show splitRuns p (c :: (cs ++ ' ' :: joinSpace (t2 :: ts2))) = _
      rw [splitRuns_cons, if_pos hc]
      rw [List.takeWhile_append_of_pos hcs, List.dropWhile_append_of_pos hcs]
      rw [List.takeWhile_cons_of_neg (by simp [hsp]), List.dropWhile_cons_of_neg (by simp [hsp])]
      rw [splitRuns_cons, if_neg (by simp [hsp] : ¬ p ' ' = true)]
      rw [ih (fun u hu => h u (by simp [hu]))]
      simp

theorem tagEnd_subset : ∀ (s r : Str), tagEnd s = some r → ∀ c ∈ r, c ∈ s := by
  intro s
  induction s with
  | nil => intro r h; simp [tagEnd] at h
  | cons a rest ih =>
    intro r h c hc
    simp only [tagEnd] at h
    by_cases ha : a = '>'
    · rw [if_pos ha] at h
      cases h
      simp [hc]
    · rw [if_neg ha] at h
      by_cases hn : a = '\n'
      · rw [if_pos hn] at h; cases h
      · rw [if_neg hn] at h
        have := ih r h c hc
        simp [this]

theorem mem_removeTags {c : Char} : ∀ (s : Str), c ∈ removeTags s → c ∈ s := by
  have H : ∀ (n : Nat) (s : Str), s.length ≤ n → c ∈ removeTags s → c ∈ s := by
    intro n
    induction n with
    | zero =>
      intro s hs h
      have : s = [] := List.length_eq_zero.mp (Nat.le_zero.mp hs)
      subst this
      simpa [removeTags_nil] using h
    | succ n ihn =>
      intro s hs h
      cases s with
      | nil => simpa [removeTags_nil] using h
      | cons a rest =>
        simp only [List.length_cons] at hs
        rw [removeTags_cons] at h
        by_cases ha : a = '<'
        · rw [if_pos ha] at h
          cases ht : tagEnd rest with
          | some rest2 =>
            rw [ht] at h
            have hl := tagEnd_length rest rest2 ht
            have hr : c ∈ rest2 := ihn rest2 (by omega) h
            have := tagEnd_subset rest rest2 ht c hr
            simp [this]
          | none =>
            rw [ht] at h
            rcases List.mem_cons.mp h with rfl | h3
            · simp
            · simp [ihn rest (by omega) h3]
        · rw [if_neg ha] at h
          rcases List.mem_cons.mp h with rfl | h3
          · simp
          · simp [ihn rest (by omega) h3]
  exact fun s => H s.length s (Nat.le_refl _)

theorem removeTags_all_id : ∀ (s : Str), (∀ c ∈ s, c ≠ '<') → removeTags s = s := by
  intro s
  induction s with
  | nil => intro _; rfl
  | cons c rest ih =>
    intro h
    rw [removeTags_cons, if_neg (h c (by simp))]
    rw [ih (fun d hd => h d (by simp [hd]))]

theorem preprocess_toks_good (s : Str) :
    ∀ t ∈ splitRuns isWordChar (removeDigits (removeTags (pyLower s))),
      t ≠ [] ∧ ∀ c ∈ t, isWordChar c = true ∧ c.isDigit = false ∧ c.toLower = c := by
  intro t ht
  obtain ⟨hne, hall⟩ := splitRuns_sound _ _ t ht
  refine ⟨hne, fun c hc => ?_⟩
  obtain ⟨hwc, hmem⟩ := hall c hc
  have hfil := List.mem_filter.mp hmem
  have hd : c.isDigit = false := by simpa using hfil.2
  have hl : c ∈ pyLower s := mem_removeTags _ hfil.1
  obtain ⟨c', _, rfl⟩ := List.mem_map.mp hl
  exact ⟨hwc, hd, toLower_idem c'⟩

theorem preprocess_fixed_of_good (toks : List Str)
    (h : ∀ t ∈ toks, t ≠ [] ∧ ∀ c ∈ t, isWordChar c = true ∧ c.isDigit = false ∧ c.toLower = c) :
    preprocess (joinSpace toks) = joinSpace toks := by
  have hchar : ∀ c ∈ joinSpace toks,
      (isWordChar c = true ∨ c = ' ') ∧ c.isDigit = false ∧ c.toLower = c := by
    intro c hc
    rcases mem_joinSpace _ hc with ⟨t, ht, hct⟩ | rfl
    · obtain ⟨_, hall⟩ := h t ht
      obtain ⟨h1, h2, h3⟩ := hall c hct
      exact ⟨Or.inl h1, h2, h3⟩
    · exact ⟨Or.inr rfl, by decide, by decide⟩
  unfold preprocess
  have h1 : pyLower (joinSpace toks) = joinSpace toks :=
    map_fixed _ (fun c hc => (hchar c hc).2.2)
  have h2 : removeTags (joinSpace toks) = joinSpace toks := by
    apply removeTags_all_id
    intro c hc
    rcases (hchar c hc).1 with hw | rfl
    · exact wordChar_ne_lt hw
    · decide
  have h3 : removeDigits (joinSpace toks) = joinSpace toks := by
    apply List.filter_eq_self.mpr
    intro c hc
    simp [(hchar c hc).2.1]
  have h4 : splitRuns isWordChar (joinSpace toks) = toks := by
    apply splitRuns_joinSpace (by decide)
    intro t ht
    exact ⟨(h t ht).1, fun c hc => ((h t ht).2 c hc).1⟩
  rw [h1, h2, h3, h4]

theorem pySplit_preprocess_eq (s : Str) :
    pySplit (preprocess s) = splitRuns isWordChar (removeDigits (removeTags (pyLower s))) := by
  unfold pySplit preprocess
  apply splitRuns_joinSpace (by decide)
  intro t ht
  obtain ⟨hne, hall⟩ := preprocess_toks_good s t ht
  refine ⟨hne, fun c hc => ?_⟩
  simp [wordChar_not_ws (hall c hc).1]

theorem pySplit_preprocess_good (s : Str) : ∀ w ∈ pySplit (preprocess s),
    w ≠ [] ∧ ∀ c ∈ w, isWordChar c = true ∧ c.isDigit = false ∧ c.toLower = c := by
  rw [pySplit_preprocess_eq]
  exact preprocess_toks_good s

theorem preprocess_eq_joinSpace (s : Str) :
    preprocess s = joinSpace (pySplit (preprocess s)) := by
  rw [pySplit_preprocess_eq]
  rfl

theorem preprocess_word_fixed {s w : Str} (hw : w ∈ pySplit (preprocess s)) :
    preprocess w = w := by
  have hg := pySplit_preprocess_good s w hw
  have := preprocess_fixed_of_good [w] (by intro t ht; simp only [List.mem_singleton] at ht; subst ht; exact hg)
  simpa [joinSpace] using this

/-! ### Substring search and splice lemmas -/

theorem isPrefixOf_self_append (w t : Str) : w.isPrefixOf (w ++ t) = true := by
  induction w with
  | nil => simp [List.isPrefixOf]
  | cons a as ih => simp [List.isPrefixOf, ih]

theorem eq_append_of_isPrefixOf {w s : Str} (h : w.isPrefixOf s = true) :
    ∃ t, s = w ++ t := by
  induction w generalizing s with
  | nil => exact ⟨s, rfl⟩
  | cons a as ih =>
    cases s with
    | nil => simp [List.isPrefixOf] at h
    | cons b bs =>
      simp only [List.isPrefixOf, Bool.and_eq_true, beq_iff_eq] at h
      obtain ⟨rfl, h2⟩ := h
      obtain ⟨t, rfl⟩ := ih h2
      exact ⟨t, rfl⟩

theorem splice_self {utt w : Str} {r : Nat} (h : w.isPrefixOf (utt.drop r) = true) :
    utt.take r ++ (w ++ utt.drop (r + w.length)) = utt := by
  obtain ⟨t, ht⟩ := eq_append_of_isPrefixOf h
  have hd : utt.drop (r + w.length) = t := by
    rw [← List.drop_drop, ht, List.drop_left]
  rw [hd, ← ht, List.take_append_drop]

theorem findAux_spec (pat : Str) (hpat : pat ≠ []) :
    ∀ (s : Str) (i q : Nat), pat.isPrefixOf (s.drop q) = true →
    ∃ j : Nat, j ≤ q ∧ findAux pat s i = ((i + j : Nat) : Int) ∧
      pat.isPrefixOf (s.drop j) = true := by
  intro s
  induction s with
  | nil =>
    intro i q h
    exfalso
    apply hpat
    rw [List.drop_nil] at h
    cases pat with
    | nil => rfl
    | cons a as => simp [List.isPrefixOf] at h
  | cons c rest ih =>
    intro i q h
    by_cases hp : pat.isPrefixOf (c :: rest) = true
    · exact ⟨0, Nat.zero_le q, by simp [findAux, hp], by simpa using hp⟩
    · cases q with
      | zero => rw [List.drop_zero] at h; exact absurd h hp
      | succ q' =>
        rw [List.drop_succ_cons] at h
        obtain ⟨j', hj'q, heq, hpre⟩ := ih (i + 1) q' h
        refine ⟨j' + 1, by omega, ?_, by simpa [List.drop_succ_cons] using hpre⟩
        simp only [findAux, if_neg hp]
        rw [heq]
        congr 1
        omega

theorem pyFindI_spec {utt pat : Str} {prev : Int} {q : Nat}
    (hpat : pat ≠ []) (h0 : 0 ≤ prev) (hpq : prev.toNat ≤ q)
    (hocc : pat.isPrefixOf (utt.drop q) = true) :
    ∃ r : Nat, pyFindI utt pat prev = (r : Int) ∧ prev.toNat ≤ r ∧ r ≤ q ∧
      pat.isPrefixOf (utt.drop r) = true := by
  have hqlen : q < utt.length := by
    obtain ⟨t, ht⟩ := eq_append_of_isPrefixOf hocc
    by_contra hq
    push_neg at hq
    rw [List.drop_eq_nil_of_le hq] at ht
    have : pat = [] := by
      cases pat with
      | nil => rfl
      | cons a as => simp at ht
    exact hpat this
  have hocc' : pat.isPrefixOf ((utt.drop prev.toNat).drop (q - prev.toNat)) = true := by
    rw [List.drop_drop]
    have he : prev.toNat + (q - prev.toNat) = q := by omega
    rw [he]
    exact hocc
  obtain ⟨j, hjq, heq, hpre⟩ := findAux_spec pat hpat (utt.drop prev.toNat) prev.toNat (q - prev.toNat) hocc'
  refine ⟨prev.toNat + j, ?_, by omega, by omega, ?_⟩
  · unfold pyFindI
    rw [if_pos h0, if_pos (by omega)]
    exact heq
  · rw [List.drop_drop] at hpre
    exact hpre

theorem splice_cast (utt w cand : Str) (r : Nat) :
    pySliceTo utt ((r : Nat) : Int) ++ cand ++
      pySliceFrom utt (((r : Nat) : Int) + ((w.length : Nat) : Int)) =
    utt.take r ++ cand ++ utt.drop (r + w.length) := by
  have h2 : ((r : Nat) : Int) + ((w.length : Nat) : Int) = (((r + w.length : Nat)) : Int) := by
    push_cast
    ring
  rw [h2]
  unfold pySliceTo pySliceFrom
  rw [if_pos (by positivity), if_pos (by positivity)]
  rfl


theorem buildTokens_cons (d : SynMap) (w : Str) (ws : List Str) :
    ∃ tail, buildTokens d (w :: ws) = (w :: tail) :: buildTokens d ws := by
  unfold buildTokens
  simp only [List.map_cons]
  cases hdg : dictGet d w with
  | some syns => exact ⟨syns, rfl⟩
  | none => exact ⟨[], rfl⟩

theorem buildTokens_cons_none (d : SynMap) (w : Str) (ws : List Str)
    (h : dictGet d w = none) :
    buildTokens d (w :: ws) = [w] :: buildTokens d ws := by
  unfold buildTokens
  simp only [List.map_cons, h]

theorem synLoop_main (utt : Str) (d : SynMap) :
    ∀ (ws : List Str) (p : Nat) (prev : Int),
    (∀ w ∈ ws, w ≠ []) → 0 ≤ prev → prev.toNat ≤ p → utt.drop p = joinSpace ws →
    ((∀ pr ∈ synStarts utt (buildTokens d ws) prev,
        0 ≤ pr.2 ∧ pr.1.isPrefixOf (utt.drop pr.2.toNat) = true)
     ∧ (ws ≠ [] → utt ∈ synLoop utt (buildTokens d ws) prev)
     ∧ ((∀ w ∈ ws, dictGet d w = none) →
        synLoop utt (buildTokens d ws) prev = List.replicate ws.length utt)) := by
  intro ws
  induction ws with
  | nil =>
    intro p prev _ _ _ _
    refine ⟨?_, ?_, ?_⟩ <;> simp [buildTokens, synStarts, synLoop]
  | cons w ws2 ih =>
    intro p prev hne h0 hpp hdrop
    have hwne : w ≠ [] := hne w (by simp)
    have hwp : w.isPrefixOf (utt.drop p) = true := by
      rw [hdrop]
      cases ws2 with
      | nil => simpa [joinSpace] using isPrefixOf_self_append w []
      | cons t2 ts2 => rw [joinSpace_cons_cons]; exact isPrefixOf_self_append w _
    obtain ⟨r, hfind, hrprev, hrp, hrocc⟩ := pyFindI_spec hwne h0 hpp hwp
    -- the length of the remaining suffix pins p inside the utterance
    have hplen : p + w.length ≤ utt.length := by
      have hlen : (utt.drop p).length = utt.length - p := List.length_drop p utt
      have hple : w.length ≤ (utt.drop p).length := by
        obtain ⟨t, ht⟩ := eq_append_of_isPrefixOf hwp
        rw [ht]
        simp
      by_cases hpl : p ≤ utt.length
      · omega
      · exfalso
        rw [List.drop_eq_nil_of_le (by omega)] at hdrop
        cases ws2 with
        | nil => simp [joinSpace] at hdrop; exact hwne hdrop
        | cons t2 ts2 =>
          rw [joinSpace_cons_cons] at hdrop
          have := congrArg List.length hdrop
          simp at this
          omega
    -- invariant for the tail
    have hstep : ∀ pr2 : Nat, pr2 = r + w.length →
        (∀ pr ∈ synStarts utt (buildTokens d ws2) ((pr2 : Nat) : Int),
            0 ≤ pr.2 ∧ pr.1.isPrefixOf (utt.drop pr.2.toNat) = true)
        ∧ (ws2 ≠ [] → utt ∈ synLoop utt (buildTokens d ws2) ((pr2 : Nat) : Int))
        ∧ ((∀ w2 ∈ ws2, dictGet d w2 = none) →
            synLoop utt (buildTokens d ws2) ((pr2 : Nat) : Int) =
              List.replicate ws2.length utt) := by
      intro pr2 hpr2
      cases ws2 with
      | nil =>
        refine ⟨?_, ?_, ?_⟩ <;> simp [buildTokens, synStarts, synLoop]
      | cons t2 ts2 =>
        have hJ : utt.drop (p + w.length + 1) = joinSpace (t2 :: ts2) := by
          have h1 : utt.drop (p + w.length + 1) = (utt.drop p).drop (w.length + 1) := by
            rw [List.drop_drop]
            congr 1
          rw [h1, hdrop, joinSpace_cons_cons]
          have h2 : w ++ ' ' :: joinSpace (t2 :: ts2) = (w ++ [' ']) ++ joinSpace (t2 :: ts2) := by
            simp
          rw [h2]
          have h3 : w.length + 1 = (w ++ [' ']).length := by simp
          rw [h3, List.drop_left]
        exact ih (p + w.length + 1) ((pr2 : Nat) : Int)
          (fun u hu => hne u (by simp [hu]))
          (by positivity)
          (by omega)
          hJ
    obtain ⟨tail, hbt⟩ := buildTokens_cons d w ws2
    have hsplice : ∀ cand : Str,
        pySliceTo utt (pyFindI utt w prev) ++ cand ++
          pySliceFrom utt (pyFindI utt w prev + ((w.length : Nat) : Int)) =
        utt.take r ++ cand ++ utt.drop (r + w.length) := by
      intro cand
      rw [hfind]
      exact splice_cast utt w cand r
    have hself : utt.take r ++ w ++ utt.drop (r + w.length) = utt := by
      rw [List.append_assoc]
      exact splice_self hrocc
    refine ⟨?_, ?_, ?_⟩
    · -- all find results are valid occurrences
      rw [hbt]
      intro pr hpr
      simp only [synStarts] at hpr
      rw [hfind] at hpr
      rcases List.mem_cons.mp hpr with rfl | htl
      · refine ⟨by positivity, ?_⟩
        simpa using hrocc
      · have hcast : ((r : Nat) : Int) + ((w.length : Nat) : Int) = (((r + w.length : Nat)) : Int) := by
          push_cast
          ring
        rw [hcast] at htl
        exact ((hstep (r + w.length) rfl).1) pr htl
    · -- the unchanged utterance is among the outputs
      intro _
      rw [hbt]
      simp only [synLoop]
      apply List.mem_append_left
      apply List.mem_map.mpr
      refine ⟨w, by simp, ?_⟩
      rw [hsplice w]
      exact hself
    · -- with an empty synonym map every position regenerates the utterance
      intro hnone
      have hw0 : dictGet d w = none := hnone w (by simp)
      rw [buildTokens_cons_none d w ws2 hw0]
      simp only [synLoop, List.map_cons, List.map_nil]
      rw [hsplice w, hself]
      have hcast : pyFindI utt w prev + ((w.length : Nat) : Int) = (((r + w.length : Nat)) : Int) := by
        rw [hfind]
        push_cast
        ring
      have htl := (hstep (r + w.length) rfl).2.2 (fun u hu => hnone u (by simp [hu]))
      rw [hcast, htl]
      simp [List.replicate_succ]



/-! ### Claim theorems -/

/-- C7: the normalizer is idempotent: for every string `x`,
`preprocess (preprocess x) = preprocess x`. -/
theorem claim_C7_normalizer_idempotent (x : Str) :
    preprocess (preprocess x) = preprocess x :=
  preprocess_fixed_of_good _ (preprocess_toks_good x)

/-- C9 (evidence for the code bug): contrary to the claim (and to the
docstring of `preprocess`), the tokenizer's word-pattern `\w+` keeps
1-character tokens: normalizing "do i need a referral" keeps the 1-character
tokens "i" and "a" unchanged. -/
theorem claim_C9_short_tokens_kept :
    preprocess (("do i need a referral").data) = ("do i need a referral").data ∧
    ("a").data ∈ pySplit (preprocess (("do i need a referral").data)) ∧
    (("a").data).length < 2 := by
  refine ⟨by decide, by decide, by decide⟩

/-- C2: on the normalized utterance "do i need a referral", the phrase
assembler produces exactly the five variants substituting the second to sixth
entries of the "need" equivalence class for the matched phrase "do i need",
and no variant using the class's final entry "will i need to". -/
theorem claim_C2_phrase_assembler_exact :
    add_phrases (("do i need a referral").data) =
      [("do i need to a referral").data, ("must i a referral").data,
       ("must i have a referral").data, ("is it required that i a referral").data,
       ("will i need a referral").data] ∧
    ("will i need to a referral").data ∉ add_phrases (("do i need a referral").data) := by
  refine ⟨by decide, by decide⟩

/-- C6: the single-word assembler's output never contains duplicates (it is
`list(set(...))`), while the phrase assembler's output can: the duplicated
"what are the signs i need" entry of the `signs` class makes `add_phrases`
emit every variant of "what are the signs i need help" twice. -/
theorem claim_C6_dedup_law :
    (∀ (utt : Str) (d : SynMap), (add_synonyms utt d).Nodup) ∧
    ¬ (add_phrases (("what are the signs i need help").data)).Nodup := by
  constructor
  · intro utt d
    exact List.nodup_dedup _
  · decide



theorem synLoop_at_start (x : Str) (d : SynMap) :
    (∀ pr ∈ synStarts (preprocess x) (buildTokens d (pySplit (preprocess x))) 0,
        0 ≤ pr.2 ∧ pr.1.isPrefixOf ((preprocess x).drop pr.2.toNat) = true)
    ∧ (pySplit (preprocess x) ≠ [] →
        preprocess x ∈ synLoop (preprocess x) (buildTokens d (pySplit (preprocess x))) 0)
    ∧ ((∀ w ∈ pySplit (preprocess x), dictGet d w = none) →
        synLoop (preprocess x) (buildTokens d (pySplit (preprocess x))) 0 =
          List.replicate (pySplit (preprocess x)).length (preprocess x)) := by
  apply synLoop_main (preprocess x) d (pySplit (preprocess x)) 0 0
  · intro w hw
    exact (pySplit_preprocess_good x w hw).1
  · decide
  · decide
  · rw [List.drop_zero]
    exact preprocess_eq_joinSpace x

theorem add_phrases_no_match {utt : Str}
    (h : ∀ pl ∈ get_phrases, ∀ ph ∈ pl, pyContains utt ph = false) :
    add_phrases utt = [] := by
  unfold add_phrases
  rw [if_neg (by decide : ¬ (get_phrases = []))]
  apply List.flatten_eq_nil_iff.mpr
  intro l hl
  obtain ⟨pl, hpl, rfl⟩ := List.mem_map.mp hl
  apply List.flatten_eq_nil_iff.mpr
  intro l2 hl2
  obtain ⟨ph, hph, rfl⟩ := List.mem_map.mp hl2
  have := h pl hpl ph hph
  simp [this]

theorem dedup_replicate_succ (n : Nat) (a : Str) :
    (List.replicate (n + 1) a).dedup = [a] := by
  induction n with
  | zero => simp
  | succ n ih =>
    rw [List.replicate_succ, List.dedup_cons_of_mem (by simp [List.mem_replicate]), ih]

/-- C10: on a normalized utterance, every substring search of the
`add_synonyms` loop succeeds: each `find` result is non-negative and is an
actual occurrence of the looked-up word, for any synonym map `d`. -/
theorem claim_C10_find_always_succeeds (x : Str) (d : SynMap) :
    ∀ pr ∈ synStarts (preprocess x) (buildTokens d (pySplit (preprocess x))) 0,
      0 ≤ pr.2 ∧ pr.1.isPrefixOf ((preprocess x).drop pr.2.toNat) = true :=
  (synLoop_at_start x d).1

/-- C10 witness: on "hello world" with an empty synonym map, the loop's first
find result is the valid occurrence of "hello" at index 0. -/
theorem claim_C10_witness :
    0 ≤ (((("hello").data, (0 : Int)) : Str × Int)).2 ∧
    (((("hello").data, (0 : Int)) : Str × Int)).1.isPrefixOf
      ((preprocess (("hello world").data)).drop
        ((((("hello").data, (0 : Int)) : Str × Int)).2.toNat)) = true :=
  claim_C10_find_always_succeeds (("hello world").data) [] (("hello").data, 0) (by decide)

/-- C4 counterexample: for the empty input the normalized utterance is empty,
the loop runs zero times and `add_synonyms` returns `[]`, so no output equals
the normalized utterance — the claim fails as stated for every input. -/
theorem claim_C4_counterexample :
    add_synonyms (preprocess ([] : Str)) [] = [] ∧
    preprocess ([] : Str) ∉ add_synonyms (preprocess ([] : Str)) [] := by
  refine ⟨by decide, by decide⟩

/-- C4 (amended): for every input whose normalized utterance is nonempty, and
any synonym map, `add_synonyms` yields at least one output equal to the
unchanged normalized utterance (each position's candidate list starts with
the original word). -/
theorem claim_C4_unchanged_copy (x : Str) (d : SynMap) (hne : preprocess x ≠ []) :
    preprocess x ∈ add_synonyms (preprocess x) d := by
  have hws : pySplit (preprocess x) ≠ [] := by
    intro h0
    apply hne
    rw [preprocess_eq_joinSpace x, h0]
    rfl
  have hmem := (synLoop_at_start x d).2.1 hws
  unfold add_synonyms
  exact List.mem_dedup.mpr hmem

/-- C4 witness: the input "hello" with the empty synonym map. -/
theorem claim_C4_witness :
    preprocess (("hello").data) ∈ add_synonyms (preprocess (("hello").data)) [] :=
  claim_C4_unchanged_copy (("hello").data) [] (by decide)

/-- C5 (amended): for every input whose normalized utterance is nonempty,
whose built synonym map is empty and which contains no phrase-table phrase,
`generate()` returns exactly one entry: the normalized utterance unchanged
(`sh` is the shuffle, an arbitrary permutation). -/
theorem claim_C5_identity_generation (x : Str) (o : Oracles) (modelIn : Option SimModel)
    (wiki : SimModel) (sh : List Str → List Str)
    (hsh : ∀ l, List.Perm (sh l) l)
    (hmap : map_synonyms o (initModel wiki modelIn) (preprocess x) = .ok [])
    (hph : ∀ pl ∈ get_phrases, ∀ ph ∈ pl, pyContains (preprocess x) ph = false)
    (hne : preprocess x ≠ []) :
    generate o modelIn wiki sh x = .ok [preprocess x] := by
  have hgen : generate o modelIn wiki sh x =
      Except.bind (map_synonyms o (initModel wiki modelIn) (preprocess x))
        (fun d => Except.ok (sh (add_synonyms (preprocess x) d ++ add_phrases (preprocess x)))) :=
    rfl
  rw [hgen, hmap]
  show Except.ok (sh (add_synonyms (preprocess x) [] ++ add_phrases (preprocess x))) = _
  rw [add_phrases_no_match hph, List.append_nil]
  have hws : pySplit (preprocess x) ≠ [] := by
    intro h0
    apply hne
    rw [preprocess_eq_joinSpace x, h0]
    rfl
  have hrep := (synLoop_at_start x []).2.2 (fun w _ => rfl)
  unfold add_synonyms
  rw [hrep]
  obtain ⟨w, ws, hws2⟩ := List.exists_cons_of_ne_nil hws
  rw [hws2]
  simp only [List.length_cons]
  rw [dedup_replicate_succ]
  rw [List.perm_singleton.mp (hsh [preprocess x])]

/-- C5 witness: the input "hello" with trivial collaborators (no spaCy
tokens, no lemmas), no embedding model passed, and the identity shuffle. -/
theorem claim_C5_witness :
    generate trivOracles none zeroModel (fun l => l) (("hello").data) =
      .ok [preprocess (("hello").data)] :=
  claim_C5_identity_generation (("hello").data) trivOracles none zeroModel (fun l => l)
    (fun l => List.Perm.refl l) (by rfl) (by decide) (by decide)

/-- C5 counterexample: the empty input has an empty synonym map and no phrase
match, yet `generate()` returns `[]`, not the one-entry list containing the
(empty) normalized utterance. -/
theorem claim_C5_counterexample :
    map_synonyms trivOracles (initModel zeroModel none) (preprocess ([] : Str)) = .ok [] ∧
    (∀ pl ∈ get_phrases, ∀ ph ∈ pl, pyContains (preprocess ([] : Str)) ph = false) ∧
    generate trivOracles none zeroModel (fun l => l) ([] : Str) = .ok [] ∧
    (Except.ok ([] : List Str) : Except String (List Str)) ≠ .ok [preprocess ([] : Str)] := by
  refine ⟨by rfl, by decide, by rfl, ?_⟩
  intro h
  injection h with h2
  exact absurd h2 (by decide)



/-- C8 counterexample: with an empty stored utterance (as built from the
empty raw input), the non-empty word "??" normalizes to the empty string,
which is a substring of the stored utterance (`"" in ""` is `True` in
Python), yet `get_pos` raises — so "fails exactly when the word is empty or
not present", with nothing said about the utterance, is false as stated. -/
theorem claim_C8_counterexample :
    ("??").data ≠ ([] : Str) ∧
    pyContains ([] : Str) (preprocess (("??").data)) = true ∧
    (∃ e, get_pos trivOracles.nlp ([] : Str) (("??").data) = .error e) := by
  refine ⟨by decide, by decide, ?_⟩
  exact ⟨"Error: Input is empty string.", by rfl⟩

/-- C8 (amended): `get_pos` fails exactly when the stored utterance is empty,
the word is empty, or the normalized word is not a substring of the stored
utterance; in every other case it returns (without failing) the tag of the
first matching token, if any. -/
theorem claim_C8_error_iff (nlpO : Str → List (Str × POS)) (utt word : Str) :
    (∃ e, get_pos nlpO utt word = .error e) ↔
      (utt = [] ∨ word = [] ∨ pyContains utt (preprocess word) = false) := by
  unfold get_pos
  by_cases h1 : utt = [] ∨ word = []
  · rw [if_pos h1]
    simp only [iff_true_intro (by tauto : utt = [] ∨ word = [] ∨ pyContains utt (preprocess word) = false)]
    simp
  · rw [if_neg h1]
    by_cases h2 : pyContains utt (preprocess word) = false
    · rw [if_pos h2]
      simp [h1, h2]
    · rw [if_neg h2]
      simp [h1, h2]

/-- C1 (evidence for the code bug): constructing without a model stores the
module-level wiki model (`initModel` never yields `None`), and the stored
model then drives the similarity filter: for the word "cat" with lexical
synonym "feline" scored 0 by the (stand-in) wiki model, `get_synonyms`
returns only `["cat"]` (the word itself at self-similarity 1.0 survives the
0.70 threshold), not the unfiltered synonym set `{"feline"}` that the
no-model branch would return. -/
theorem claim_C1_missing_model_still_filters :
    (∀ wiki : SimModel, initModel wiki none = some wiki) ∧
    get_synonyms catOracles (initModel zeroModel none) (("cat").data) (("cat").data) =
      .ok (some [("cat").data]) ∧
    get_synonyms catOracles none (("cat").data) (("cat").data) =
      .ok (some [("feline").data]) :=
  ⟨fun _ => rfl, by rfl, by rfl⟩



theorem mem_dictUpd {α : Type} {d : List (Str × α)} {k : Str} {v : α} {x : Str × α}
    (h : x ∈ dictUpd d k v) : x ∈ d ∨ x = (k, v) := by
  unfold dictUpd at h
  by_cases hc : d.any (fun p => p.1 == k) = true
  · rw [if_pos hc] at h
    obtain ⟨p, hp, hpx⟩ := List.mem_map.mp h
    by_cases hpk : (p.1 == k) = true
    · rw [if_pos hpk] at hpx
      exact Or.inr hpx.symm
    · rw [if_neg hpk] at hpx
      exact Or.inl (hpx ▸ hp)
  · rw [if_neg hc] at h
    rcases List.mem_append.mp h with h1 | h2
    · exact Or.inl h1
    · simp only [List.mem_singleton] at h2
      exact Or.inr h2

theorem mem_get_similarities {m : SimModel} {w : Str} {syns : List Str} {x : Str × Rat}
    (h : x ∈ get_similarities m w syns) :
    x = (w, 1) ∨ m w x.1 = some x.2 := by
  have H : ∀ (l : List Str) (init : List (Str × Rat)),
      (∀ y ∈ init, y = (w, 1) ∨ m w y.1 = some y.2) →
      ∀ y ∈ l.foldl
        (fun sims s => match m w s with | some v => dictUpd sims s v | none => sims) init,
        y = (w, 1) ∨ m w y.1 = some y.2 := by
    intro l
    induction l with
    | nil =>
      intro init hinit y hy
      exact hinit y hy
    | cons s rest ih =>
      intro init hinit y hy
      simp only [List.foldl_cons] at hy
      cases hm : m w s with
      | some v =>
        rw [hm] at hy
        refine ih _ ?_ y hy
        intro z hz
        rcases mem_dictUpd hz with hz1 | hz2
        · exact hinit z hz1
        · subst hz2
          exact Or.inr hm
      | none =>
        rw [hm] at hy
        exact ih init hinit y hy
  exact H syns [(w, 1)] (by simp) x h

theorem mem_filterSyns {word c : Str} {syns : List Str} (h : c ∈ filterSyns word syns) :
    c ∈ syns ∧ (pySplitChar '_' c).length = 1 ∧ preprocess c ≠ word := by
  unfold filterSyns at h
  have hf := List.mem_filter.mp h
  have hb := hf.2
  simp only [Bool.and_eq_true, beq_iff_eq, bne_iff_ne] at hb
  exact ⟨hf.1, hb.1, hb.2⟩

theorem get_synonyms_some_spec {o : Oracles} {m : SimModel} {utt word : Str} {l : List Str}
    (h : get_synonyms o (some m) utt word = .ok (some l)) :
    ∀ c ∈ l, c = word ∨ ∃ v, m word c = some v ∧ mkRat 7 10 ≤ v := by
  unfold get_synonyms at h
  cases hp : get_pos o.nlp utt (preprocess word) with
  | error e =>
    rw [hp] at h
    have h2 : (Except.error e : Except String (Option (List Str))) = .ok (some l) := h
    cases h2
  | ok posOpt =>
    rw [hp] at h
    cases posOpt with
    | none =>
      have h2 : (Except.ok none : Except String (Option (List Str))) = .ok (some l) := h
      cases h2
    | some pos =>
      by_cases hsup : supportedPOS pos = false
      · have h2 : (Except.ok none : Except String (Option (List Str))) = .ok (some l) := by
          rw [← h]
          show Except.ok none = (if supportedPOS pos = false then _ else _)
          rw [if_pos hsup]
          rfl
        cases h2
      · have h2 : Except.ok (some
            (((get_similarities m word
                (if word.length > 1 then (o.lemmas word (posmap pos)).dedup else [])).filter
              (fun p => mkRat 7 10 ≤ p.2)).map (fun p => p.1)))
            = (Except.ok (some l) : Except String (Option (List Str))) := by
          rw [← h]
          show _ = (if supportedPOS pos = false then _ else _)
          rw [if_neg hsup]
          rfl
        have hl : l = ((get_similarities m word
            (if word.length > 1 then (o.lemmas word (posmap pos)).dedup else [])).filter
              (fun p => mkRat 7 10 ≤ p.2)).map (fun p => p.1) := by
          cases h2
          rfl
        subst hl
        intro c hc
        obtain ⟨p2, hp2, hpc⟩ := List.mem_map.mp hc
        have hfil := List.mem_filter.mp hp2
        have hv : mkRat 7 10 ≤ p2.2 := by
          have := hfil.2
          simpa using this
        rcases mem_get_similarities hfil.1 with he | hm
        · left
          rw [← hpc, he]
        · right
          exact ⟨p2.2, by rw [← hpc]; exact hm, hv⟩



theorem mapSynStep_ok {o : Oracles} {model : Option SimModel} {utt : Str} {acc : SynMap}
    {word : Str} {acc2 : SynMap} (h : mapSynStep o model utt acc word = .ok acc2) :
    acc2 = acc ∨ ∃ syns1, get_synonyms o model utt word = .ok (some syns1) ∧
      filterSyns word syns1 ≠ [] ∧ acc2 = dictUpd acc word (filterSyns word syns1) := by
  unfold mapSynStep at h
  cases hs : get_synonyms o model utt word with
  | error e =>
    rw [hs] at h
    have h2 : (Except.error e : Except String SynMap) = .ok acc2 := h
    cases h2
  | ok synsOpt =>
    rw [hs] at h
    cases synsOpt with
    | none =>
      have h2 : (Except.ok acc : Except String SynMap) = .ok acc2 := h
      cases h2
      exact Or.inl rfl
    | some l =>
      by_cases hl : l = []
      · subst hl
        have h2 : (Except.ok acc : Except String SynMap) = .ok acc2 := h
        cases h2
        exact Or.inl rfl
      · have hl2 : l ≠ [] := hl
        have h3 : (if (if l ≠ [] then filterSyns word l else l) ≠ [] then
            (pure (dictUpd acc word (if l ≠ [] then filterSyns word l else l)) :
              Except String SynMap) else pure acc) = .ok acc2 := h
        rw [if_pos hl2] at h3
        by_cases hf : filterSyns word l ≠ []
        · rw [if_pos hf] at h3
          have h4 : (Except.ok (dictUpd acc word (filterSyns word l)) :
              Except String SynMap) = .ok acc2 := h3
          cases h4
          exact Or.inr ⟨l, rfl, hf, rfl⟩
        · rw [if_neg hf] at h3
          have h4 : (Except.ok acc : Except String SynMap) = .ok acc2 := h3
          cases h4
          exact Or.inl rfl

theorem map_synonyms_fold_invariant (o : Oracles) (model : Option SimModel) (utt : Str) :
    ∀ (ws : List Str) (acc : SynMap),
      (∀ w ∈ ws, preprocess w = w) →
      (∀ e ∈ acc, e.2 ≠ [] ∧ ∀ c ∈ e.2,
        (pySplitChar '_' c).length = 1 ∧ preprocess c ≠ e.1 ∧
        (∀ m, model = some m → ∃ v, m e.1 c = some v ∧ mkRat 7 10 ≤ v)) →
      ∀ (res : SynMap), ws.foldlM (mapSynStep o model utt) acc = .ok res →
        ∀ e ∈ res, e.2 ≠ [] ∧ ∀ c ∈ e.2,
          (pySplitChar '_' c).length = 1 ∧ preprocess c ≠ e.1 ∧
          (∀ m, model = some m → ∃ v, m e.1 c = some v ∧ mkRat 7 10 ≤ v) := by
  intro ws
  induction ws with
  | nil =>
    intro acc _ hacc res hres
    have h2 : (Except.ok acc : Except String SynMap) = .ok res := hres
    cases h2
    exact hacc
  | cons w ws2 ih =>
    intro acc hws hacc res hres
    rw [List.foldlM_cons] at hres
    cases hstep : mapSynStep o model utt acc w with
    | error e2 =>
      rw [hstep] at hres
      have h2 : (Except.error e2 : Except String SynMap) = .ok res := hres
      cases h2
    | ok acc2 =>
      rw [hstep] at hres
      refine ih acc2 (fun u hu => hws u (by simp [hu])) ?_ res hres
      intro e he
      rcases mapSynStep_ok hstep with heq | ⟨syns1, hsyn, hfne, hupd⟩
      · subst heq
        exact hacc e he
      · subst hupd
        rcases mem_dictUpd he with h1 | h2
        · exact hacc e h1
        · subst h2
          refine ⟨hfne, ?_⟩
          intro c hc
          obtain ⟨hcs, hlen, hneq⟩ := mem_filterSyns hc
          refine ⟨hlen, hneq, ?_⟩
          intro m hm
          subst hm
          rcases get_synonyms_some_spec hsyn c hcs with hrfl | hv
          · subst hrfl
            exact absurd (hws c (by simp)) hneq
          · exact hv

/-- C3: invariant of the synonym map built by `map_synonyms` over a
normalized utterance: every recorded word has a nonempty candidate list, and
every candidate is a single token (its split on "_" has one piece),
normalizes to a string different from the source word, and — whenever an
embedding model is stored — was scored by that model with similarity at
least 0.70 against the source word. -/
theorem claim_C3_synonym_map_invariant (o : Oracles) (model : Option SimModel) (x : Str)
    (d : SynMap) (hd : map_synonyms o model (preprocess x) = .ok d) :
    ∀ e ∈ d, e.2 ≠ [] ∧ ∀ c ∈ e.2,
      (pySplitChar '_' c).length = 1 ∧ preprocess c ≠ e.1 ∧
      (∀ m, model = some m → ∃ v, m e.1 c = some v ∧ mkRat 7 10 ≤ v) :=
  map_synonyms_fold_invariant o model (preprocess x) (pySplit (preprocess x)) []
    (fun w hw => preprocess_word_fixed hw) (by simp) d hd

/-- C3 witness: the utterance "cat" with collaborators tagging "cat" as a
noun with lemma "feline", and a model scoring every pair 0.9, builds the map
[("cat", ["feline"])]; the invariant holds at that entry. -/
theorem claim_C3_witness :
    (((("cat").data, [("feline").data]) : Str × List Str)).2 ≠ [] ∧
    ∀ c ∈ (((("cat").data, [("feline").data]) : Str × List Str)).2,
      (pySplitChar '_' c).length = 1 ∧
      preprocess c ≠ (((("cat").data, [("feline").data]) : Str × List Str)).1 ∧
      (∀ m, (some nineModel : Option SimModel) = some m →
        ∃ v, m (((("cat").data, [("feline").data]) : Str × List Str)).1 c = some v ∧
          mkRat 7 10 ≤ v) :=
  claim_C3_synonym_map_invariant catOracles (some nineModel) (("cat").data)
    [((("cat").data), [("feline").data])] (by rfl)
    ((("cat").data), [("feline").data]) (by decide)


end UtterGen
